import Mathlib

/-!
Verification development for the symbolic-expressions library
(file expressions/expressions.py).

The library builds algebraic expression trees (numeric literals, named
symbols, five binary operators), overloads the arithmetic operators to
construct nodes, renders expressions with precedence-aware
parenthesization, and differentiates expressions via singledispatch
rules driven by a generic explicit-stack postorder visitor.

Two embeddings are used:

* a pure tree model (the inductive type Expr below) for node
  construction, the dunder arithmetic methods, string rendering, and
  the per-kind differentiation rules;

* a heap model of the postorder visitor, where nodes are identified by
  natural-number ids and a graph assigns each id its list of operand
  ids.  Python memoizes by object identity (Expression defines neither
  structural equality nor hashing), so distinct ids model distinct
  Python objects even when structurally equal.  The visitor loop is
  embedded as a step function on configurations, iterated with fuel;
  a trace field records every invocation of the visited function
  together with the positional arguments and keyword arguments passed.
-/

namespace Expressions

/-- A native Python numeric value as used by this library: the code
distinguishes ints (the literals 1 and 2 appearing in the Pow and Div
differentiation rules) from floats (produced by Number(0.0) and by
float(var == expr.value)).  Floats are modelled as rationals; the only
float values this development ever renders are integral (0.0, 1.0). -/
inductive PyVal where
  | int (n : ℤ)
  | float (q : ℚ)
deriving DecidableEq

/-- Python str() of a float, for the values this library renders: for a
float of integral value v, str gives the integer digits followed by
".0" (so str(0.0) = "0.0", str(1.0) = "1.0").  Non-integral floats are
never rendered by any property checked here; a placeholder rendering is
used for them. -/
def floatStr (q : ℚ) : String :=
  if q.den = 1 then toString q.num ++ ".0"
  else toString q.num ++ "/" ++ toString q.den

/-- Python str() of a native numeric value. -/
def pyValStr : PyVal → String
  | .int n => toString n
  | .float q => floatStr q

/-- The five concrete operator classes (subclasses of Opearator). -/
inductive OpKind where
  | add
  | sub
  | mul
  | div
  | pow
deriving DecidableEq

/-- The per-class symbol glyph (class attribute symbol). -/
def opSymbol : OpKind → String
  | .add => "+"
  | .sub => "-"
  | .mul => "*"
  | .div => "/"
  | .pow => "^"

/-- The per-class precedence (class attribute precedence):
Add 0, Sub 0, Mul 1, Div 1, Pow 2. -/
def opPrec : OpKind → Nat
  | .add => 0
  | .sub => 0
  | .mul => 1
  | .div => 1
  | .pow => 2

/-- An expression node: Number wraps a native numeric value, Symbol
wraps a string, and an operator node (an instance of one of the five
Opearator subclasses) holds exactly two operand expressions. -/
inductive Expr where
  | Number (v : PyVal)
  | Symbol (s : String)
  | Op (k : OpKind) (a b : Expr)
deriving DecidableEq

instance : Inhabited Expr := ⟨.Number (.float 0)⟩

/-- Node precedence: Terminal.precedence = 3 for Number and Symbol,
and the operator class constant otherwise. -/
def Expr.precedence : Expr → Nat
  | .Number _ => 3
  | .Symbol _ => 3
  | .Op k _ _ => opPrec k

/-- Readable string rendering: Terminal.__str__ returns str(value);
Opearator.__str__ parenthesizes an operand whose precedence is strictly
below the node's own precedence and joins the two sides with the glyph
surrounded by single spaces. -/
def Expr.str : Expr → String
  | .Number v => pyValStr v
  | .Symbol s => s
  | .Op k a b =>
      let r0 := if opPrec k > a.precedence then "(" ++ a.str ++ ")" else a.str
      let r1 := if opPrec k > b.precedence then "(" ++ b.str ++ ")" else b.str
      r0 ++ " " ++ opSymbol k ++ " " ++ r1

/-- An arbitrary Python object appearing as the other operand of a
dunder arithmetic method: an Expression instance, a numbers.Number
instance, a str, or any other object. -/
inductive PyObj where
  | expr (e : Expr)
  | num (v : PyVal)
  | str (s : String)
  | other (tag : String)
deriving DecidableEq

/-- isinstance(x, numbers.Number). -/
def isNum : PyObj → Bool
  | .num _ => true
  | _ => false

/-- isinstance(x, str). -/
def isStr : PyObj → Bool
  | .str _ => true
  | _ => false

/-- A raised Python exception: its class name and its message. -/
structure PyError where
  cls : String
  msg : String
deriving DecidableEq

/-- The message of the TypeError raised by both Number.__init__ and
Symbol.__init__ (the source uses the same string in both). -/
def initTypeErrorMsg : String :=
  "Numbers class expects a Number type, not a random type."

/-- Number.__init__: stores the value if isinstance(value,
numbers.Number), otherwise raises TypeError. -/
def Number_init (value : PyObj) : Except PyError Expr :=
  match value with
  | .num v => .ok (.Number v)
  | _ => .error ⟨"TypeError", initTypeErrorMsg⟩

/-- Symbol.__init__: stores the value if isinstance(value, str),
otherwise raises TypeError. -/
def Symbol_init (value : PyObj) : Except PyError Expr :=
  match value with
  | .str s => .ok (.Symbol s)
  | _ => .error ⟨"TypeError", initTypeErrorMsg⟩

/-- Expression.__init__ as invoked through an operator class: stores
the operand tuple; it performs no validation and always succeeds. -/
def Opearator_init (k : OpKind) (a b : Expr) : Expr := .Op k a b

/-- Expression.__add__: returns Add(self, other) when other is an
Expression, Add(self, Number(other)) when other is a numbers.Number,
and otherwise falls off the end of the method, returning None. -/
def dunder_add (self : Expr) (other : PyObj) : Option Expr :=
  match other with
  | .expr e => some (.Op .add self e)
  | .num v => some (.Op .add self (.Number v))
  | _ => none

/-- Expression.__mul__, same shape as dunder_add. -/
def dunder_mul (self : Expr) (other : PyObj) : Option Expr :=
  match other with
  | .expr e => some (.Op .mul self e)
  | .num v => some (.Op .mul self (.Number v))
  | _ => none

/-- Expression.__sub__, same shape as dunder_add. -/
def dunder_sub (self : Expr) (other : PyObj) : Option Expr :=
  match other with
  | .expr e => some (.Op .sub self e)
  | .num v => some (.Op .sub self (.Number v))
  | _ => none

/-- Expression.__truediv__, same shape as dunder_add. -/
def dunder_truediv (self : Expr) (other : PyObj) : Option Expr :=
  match other with
  | .expr e => some (.Op .div self e)
  | .num v => some (.Op .div self (.Number v))
  | _ => none

/-- Expression.__pow__, same shape as dunder_add. -/
def dunder_pow (self : Expr) (other : PyObj) : Option Expr :=
  match other with
  | .expr e => some (.Op .pow self e)
  | .num v => some (.Op .pow self (.Number v))
  | _ => none

/-- Expression.__radd__: term = Number(other); return term + self.
Python invokes this with a native number on the left, so Number(other)
succeeds, and term + self takes the Expression branch of __add__. -/
def dunder_radd (self : Expr) (other : PyVal) : Option Expr :=
  dunder_add (.Number other) (.expr self)

/-- Expression.__rmul__: term = Number(other); return term * self. -/
def dunder_rmul (self : Expr) (other : PyVal) : Option Expr :=
  dunder_mul (.Number other) (.expr self)

/-- Expression.__rsub__: numsub = Number(other); return numsub - self. -/
def dunder_rsub (self : Expr) (other : PyVal) : Option Expr :=
  dunder_sub (.Number other) (.expr self)

/-- Expression.__rtruediv__: numdiv = Number(other); return
numdiv / self. -/
def dunder_rtruediv (self : Expr) (other : PyVal) : Option Expr :=
  dunder_truediv (.Number other) (.expr self)

/-- Expression.__rpow__: term = Number(other); return term ** self. -/
def dunder_rpow (self : Expr) (other : PyVal) : Option Expr :=
  dunder_pow (.Number other) (.expr self)

/-- The classes of the expression hierarchy, including the three base
classes whose direct instances have no registered differentiation
rule. -/
inductive PyClassK where
  | expressionC
  | opearatorC
  | terminalC
  | addC
  | subC
  | mulC
  | divC
  | powC
  | numberC
  | symbolC
deriving DecidableEq

/-- type(expr).__name__ for each class. -/
def pyClassName : PyClassK → String
  | .expressionC => "Expression"
  | .opearatorC => "Opearator"
  | .terminalC => "Terminal"
  | .addC => "Add"
  | .subC => "Sub"
  | .mulC => "Mul"
  | .divC => "Div"
  | .powC => "Pow"
  | .numberC => "Number"
  | .symbolC => "Symbol"

/-- Whether the class has an implementation registered on the
singledispatch function differentiate (the source registers Number,
Symbol, Add, Sub, Mul, Div and Pow; none of the three base classes is
registered, and the base implementation raises). -/
def hasDiffRegistration : PyClassK → Bool
  | .numberC => true
  | .symbolC => true
  | .addC => true
  | .subC => true
  | .mulC => true
  | .divC => true
  | .powC => true
  | _ => false

/-- Singledispatch resolution for differentiate: an instance of a class
with a registered implementation dispatches to it; any other class
falls through to the undecorated base implementation, which raises
NotImplementedError with message "Cannot evaluate a " followed by the
class name. -/
def differentiate_dispatch (k : PyClassK) : Except PyError Unit :=
  if hasDiffRegistration k then .ok ()
  else .error ⟨"NotImplementedError", "Cannot evaluate a " ++ pyClassName k⟩

/-- The registered differentiation rules, as the function fn passed to
the postorder visitor: it receives the node, the list o of the already
computed derivatives of the node's operands, and the keyword argument
var.  Rule bodies are the source's, with the arithmetic dunders
unfolded at Expression operands (where they deterministically build
the corresponding operator node):

* Number: Number(0.0);
* Symbol: Number(float(var == expr.value));
* Add: o[0] + o[1];
* Sub: o[0] - o[1];
* Mul: o[0]*expr.operands[1] + o[1]*expr.operands[0];
* Div: (o[0]*expr.operands[1] - expr.operands[0]*o[1])
       / (expr.operands[1]**2), where **2 wraps the int 2 in Number;
* Pow: expr.operands[1] * (expr.operands[0]**(expr.operands[1]-1))
       * o[0], where -1 wraps the int 1 in Number.

Indexing an operand-result tuple that is too short raises IndexError in
Python; that case is the final match arm. -/
def differentiate (e : Expr) (o : List Expr) (var : String) :
    Except PyError Expr :=
  match e, o with
  | .Number _, _ => .ok (.Number (.float 0))
  | .Symbol s, _ => .ok (.Number (.float (if var = s then 1 else 0)))
  | .Op .add _ _, d0 :: d1 :: _ => .ok (.Op .add d0 d1)
  | .Op .sub _ _, d0 :: d1 :: _ => .ok (.Op .sub d0 d1)
  | .Op .mul e0 e1, d0 :: d1 :: _ =>
      .ok (.Op .add (.Op .mul d0 e1) (.Op .mul d1 e0))
  | .Op .div e0 e1, d0 :: d1 :: _ =>
      .ok (.Op .div (.Op .sub (.Op .mul d0 e1) (.Op .mul e0 d1))
        (.Op .pow e1 (.Number (.int 2))))
  | .Op .pow e0 e1, d0 :: _ =>
      .ok (.Op .mul (.Op .mul e1 (.Op .pow e0 (.Op .sub e1 (.Number (.int 1)))))
        d0)
  | .Op _ _ _, _ => .error ⟨"IndexError", "tuple index out of range"⟩

/-!
## Heap model of the postorder visitor

postvisitor(expr, fn, **kwargs) is embedded over an operand graph
g : Nat → List Nat assigning each node id the ordered list of its
operand ids.  The loop state is a configuration: the explicit stack
(head = top, matching list.pop() from the end of the Python list), the
memo dictionary visited (keyed by node identity), a trace of all
invocations of fn made so far (node, positional arguments, keyword
arguments, result — the trace is an observer recording exactly the
side-effectful calls the Python loop makes, in order), and the
currently raised exception, if any (a raise inside fn aborts the loop
and propagates).  One application of postStep is one iteration of the
Python while loop.
-/

/-- One recorded invocation of fn: the node it was called on, the
positional arguments (the memoized results of the node's operands, in
operand order), the keyword arguments, and the returned result. -/
structure PEntry (R K : Type) where
  node : Nat
  args : List R
  kw : K
  res : R
deriving DecidableEq

/-- A configuration of the while loop of postvisitor. -/
structure PConfig (R K E : Type) where
  stack : List Nat
  memo : Nat → Option R
  trace : List (PEntry R K)
  err : Option E

/-- One iteration of the while loop: pop a node e; collect its
operands not yet in the memo; if there are any, push e back followed by
the unvisited operands (so the last unvisited operand is popped next,
as in the Python list-based stack); otherwise call
fn(e, *(visited[o] for o in e.operands), **kwargs) and store the result
in the memo under e.  If fn raises, the exception is recorded and the
loop stops (every later step is the identity).  A step on an empty
stack is the identity (the Python loop has exited). -/
def postStep {R K E : Type} [Inhabited R] (g : Nat → List Nat)
    (fn : Nat → List R → K → Except E R) (kw : K) (c : PConfig R K E) :
    PConfig R K E :=
  match c.err with
  | some _ => c
  | none =>
    match c.stack with
    | [] => c
    | e :: rest =>
      if ((g e).filter fun o => (c.memo o).isNone).isEmpty then
        match fn e ((g e).map fun o => (c.memo o).getD default) kw with
        | .error err => ⟨e :: rest, c.memo, c.trace, some err⟩
        | .ok r =>
            ⟨rest, fun x => if x = e then some r else c.memo x,
             c.trace ++ [⟨e, (g e).map fun o => (c.memo o).getD default, kw, r⟩],
             none⟩
      else
        ⟨((g e).filter fun o => (c.memo o).isNone).reverse ++ e :: rest,
         c.memo, c.trace, none⟩

/-- The initial configuration: the stack holds the root, the memo and
the trace are empty, no exception has been raised. -/
def initConfig (root : Nat) : PConfig R K E :=
  ⟨[root], fun _ => none, [], none⟩

/-- The configuration after fuel iterations of the while loop. -/
def postRun {R K E : Type} [Inhabited R] (g : Nat → List Nat)
    (fn : Nat → List R → K → Except E R) (kw : K) (fuel root : Nat) :
    PConfig R K E :=
  (postStep g fn kw)^[fuel] (initConfig root)

/-- postvisitor(expr, fn, **kwargs), with fuel making the unbounded
while loop a total function: none means the loop has not finished
within fuel iterations; some (error err) means fn raised err and the
exception propagated out of postvisitor unchanged; some (ok r) means
the loop exited normally and returned visited[expr] = r.  (When the
loop exits normally the root is always in the memo, as proved below,
so the final dictionary lookup never raises KeyError.) -/
def postvisitor {R K E : Type} [Inhabited R] (g : Nat → List Nat)
    (fn : Nat → List R → K → Except E R) (kw : K) (fuel root : Nat) :
    Option (Except E R) :=
  let c := postRun g fn kw fuel root
  match c.err with
  | some err => some (.error err)
  | none =>
      if c.stack.isEmpty then (c.memo root).map Except.ok else none

/-- A Python function that never raises, as a visitor function. -/
def pfn {R K : Type} (f : Nat → List R → K → R) :
    Nat → List R → K → Except Empty R :=
  fun e o k => .ok (f e o k)

/-- Replay of a trace into the memo dictionary it builds: each
invocation stores its result under its node, later entries
overwriting earlier ones. -/
def memoAt {R K : Type} (t : List (PEntry R K)) : Nat → Option R :=
  t.foldl (fun m en => fun x => if x = en.node then some en.res else m x)
    (fun _ => none)

/-- The memo dictionary only ever grows: m' has an entry wherever m
has one. -/
def DomMono {R : Type} (m m' : Nat → Option R) : Prop :=
  ∀ x, (m x).isSome → (m' x).isSome

/-- The postorder contract on a trace of fn invocations: every
invocation carried the forwarded keyword arguments; its positional
arguments are exactly the memoized results of the node's operands, in
operand order, as of the moment of the invocation (the replay of the
trace so far); every operand was present in the memo at that moment;
and every operand had already been the subject of an earlier
invocation. -/
def GoodTrace {R K : Type} [Inhabited R] (g : Nat → List Nat) (kw : K)
    (t : List (PEntry R K)) : Prop :=
  ∀ i (hi : i < t.length),
    (t.get ⟨i, hi⟩).kw = kw
    ∧ (t.get ⟨i, hi⟩).args
        = (g (t.get ⟨i, hi⟩).node).map
            (fun o => (memoAt (t.take i) o).getD default)
    ∧ (∀ o ∈ g (t.get ⟨i, hi⟩).node, (memoAt (t.take i) o).isSome)
    ∧ (∀ o ∈ g (t.get ⟨i, hi⟩).node,
        ∃ j, ∃ hj : j < t.length, j < i ∧ (t.get ⟨j, hj⟩).node = o)

/-- The loop invariant of postvisitor: the memo dictionary is the
replay of the trace; the trace satisfies the postorder contract; and
the root is still on the stack, already memoized, or an exception has
been raised. -/
def Inv {R K E : Type} [Inhabited R] (g : Nat → List Nat) (kw : K)
    (root : Nat) (c : PConfig R K E) : Prop :=
  (∀ x, c.memo x = memoAt c.trace x)
  ∧ GoodTrace g kw c.trace
  ∧ (root ∈ c.stack ∨ (c.memo root).isSome ∨ c.err.isSome)

/-!
## Concrete operand graphs used by the claims
-/

/-- The sharing example: ids 0 and 1 are the two Symbol("x") leaves,
id 2 is shared = Symbol("x") + Symbol("x") with operands (0, 1), and
id 3 is twice = shared + shared with operands (2, 2) — the same object
appearing as both operands. -/
def gTwice : Nat → List Nat := fun n =>
  if n = 2 then [0, 1] else if n = 3 then [2, 2] else []

/-- A depth measure witnessing that gTwice is acyclic. -/
def depthTwice : Nat → Nat := fun n =>
  if n = 2 then 1 else if n = 3 then 2 else 0

/-- A counting visitor function: every invocation returns 1 (the
number of invocations is the length of the run's trace). -/
def countFn : Nat → List Nat → Unit → Except Empty Nat :=
  pfn (fun _ _ _ => 1)

/-- The operand graph of Number(a) + Number(b): ids 0 and 1 are the two
Number leaves, id 2 is the Add node. -/
def gAddNN : Nat → List Nat := fun n => if n = 2 then [0, 1] else []

/-- The node labelling of the graph gAddNN: which Expression object
each id is. -/
def lblAddNN (a b : PyVal) : Nat → Expr := fun n =>
  if n = 0 then .Number a
  else if n = 1 then .Number b
  else .Op .add (.Number a) (.Number b)

/-- A cyclic operand graph: every node's only operand is node 0, so
node 0 is its own operand and can never become visited. -/
def gCyc : Nat → List Nat := fun _ => [0]

/-- An operand graph of isolated leaves (every node has no operands). -/
def gLeaf : Nat → List Nat := fun _ => []

/-- A visitor function that always raises. -/
def failFn : Nat → List Nat → Unit → Except String Nat :=
  fun _ _ _ => .error "boom"

/-!
## Helper lemmas about the visitor step
-/

section StepLemmas

variable {R K E : Type} [Inhabited R] (g : Nat → List Nat)
variable (fn : Nat → List R → K → Except E R) (kw : K)

theorem postStep_of_err (c : PConfig R K E) (h : c.err.isSome) :
    postStep g fn kw c = c := by
  rcases c with ⟨st, m, t, err⟩
  cases err with
  | none => simp at h
  | some e => rfl

theorem postStep_nil (m : Nat → Option R) (t : List (PEntry R K)) :
    postStep g fn kw (⟨[], m, t, none⟩ : PConfig R K E) = ⟨[], m, t, none⟩ :=
  rfl

theorem postStep_push (e : Nat) (rest : List Nat) (m : Nat → Option R)
    (t : List (PEntry R K))
    (h : ((g e).filter fun o => (m o).isNone) ≠ []) :
    postStep g fn kw (⟨e :: rest, m, t, none⟩ : PConfig R K E) =
      ⟨((g e).filter fun o => (m o).isNone).reverse ++ e :: rest, m, t,
       none⟩ := by
  have hne : ((g e).filter fun o => (m o).isNone).isEmpty = false := by
    cases hfl : ((g e).filter fun o => (m o).isNone) with
    | nil => exact absurd hfl h
    | cons u us => rfl
  show (if ((g e).filter fun o => (m o).isNone).isEmpty then _ else _) = _
  rw [hne]
  simp

theorem postStep_visit (e : Nat) (rest : List Nat) (m : Nat → Option R)
    (t : List (PEntry R K)) (r : R)
    (h : ((g e).filter fun o => (m o).isNone) = [])
    (hf : fn e ((g e).map fun o => (m o).getD default) kw = .ok r) :
    postStep g fn kw (⟨e :: rest, m, t, none⟩ : PConfig R K E) =
      ⟨rest, fun x => if x = e then some r else m x,
       t ++ [⟨e, (g e).map fun o => (m o).getD default, kw, r⟩], none⟩ := by
  show (if ((g e).filter fun o => (m o).isNone).isEmpty then _ else _) = _
  rw [h]
  show (match fn e ((g e).map fun o => (m o).getD default) kw with
    | .error err => _ | .ok r => _) = _
  rw [hf]

theorem postStep_raise (e : Nat) (rest : List Nat) (m : Nat → Option R)
    (t : List (PEntry R K)) (err : E)
    (h : ((g e).filter fun o => (m o).isNone) = [])
    (hf : fn e ((g e).map fun o => (m o).getD default) kw = .error err) :
    postStep g fn kw (⟨e :: rest, m, t, none⟩ : PConfig R K E) =
      ⟨e :: rest, m, t, some err⟩ := by
  show (if ((g e).filter fun o => (m o).isNone).isEmpty then _ else _) = _
  rw [h]
  show (match fn e ((g e).map fun o => (m o).getD default) kw with
    | .error err => _ | .ok r => _) = _
  rw [hf]

end StepLemmas

section MemoAtLemmas

variable {R K : Type}

theorem memoAt_nil (x : Nat) : memoAt ([] : List (PEntry R K)) x = none :=
  rfl

theorem memoAt_append (t : List (PEntry R K)) (en : PEntry R K) (x : Nat) :
    memoAt (t ++ [en]) x = if x = en.node then some en.res else memoAt t x := by
  unfold memoAt
  rw [List.foldl_append]
  rfl

theorem memoAt_isSome_mem (t : List (PEntry R K)) (x : Nat)
    (h : (memoAt t x).isSome) :
    ∃ j, ∃ hj : j < t.length, (t.get ⟨j, hj⟩).node = x := by
  induction t using List.reverseRecOn with
  | nil => simp [memoAt_nil] at h
  | append_singleton t en ih =>
      rw [memoAt_append] at h
      by_cases hx : x = en.node
      · refine ⟨t.length, by simp, ?_⟩
        have : (t ++ [en]).get ⟨t.length, by simp⟩ = en := by
          simp
        rw [this, hx]
      · rw [if_neg hx] at h
        obtain ⟨j, hj, hnode⟩ := ih h
        refine ⟨j, by simp; omega, ?_⟩
        have : (t ++ [en]).get ⟨j, by simp; omega⟩ = t.get ⟨j, hj⟩ := by
          simp [List.getElem_append_left, hj]
        rw [this, hnode]

end MemoAtLemmas

section InvariantLemmas

variable {R K E : Type} [Inhabited R] (g : Nat → List Nat)
variable (fn : Nat → List R → K → Except E R) (kw : K) (root : Nat)

theorem inv_init : Inv g kw root (initConfig root : PConfig R K E) := by
  refine ⟨fun x => rfl, ?_, Or.inl (List.mem_singleton.mpr rfl)⟩
  intro i hi
  simp [initConfig] at hi

theorem inv_step (c : PConfig R K E) (h : Inv g kw root c) :
    Inv g kw root (postStep g fn kw c) := by
  rcases c with ⟨st, m, t, err⟩
  obtain ⟨hmemo, htrace, hroot⟩ := h
  dsimp only at hmemo htrace hroot
  cases err with
  | some er =>
      rw [postStep_of_err g fn kw _ (by simp)]
      exact ⟨hmemo, htrace, hroot⟩
  | none =>
      cases st with
      | nil =>
          rw [postStep_nil]
          exact ⟨hmemo, htrace, hroot⟩
      | cons e rest =>
          by_cases hL : ((g e).filter fun o => (m o).isNone) = []
          · cases hf : fn e ((g e).map fun o => (m o).getD default) kw with
            | error er =>
                rw [postStep_raise g fn kw e rest m t er hL hf]
                exact ⟨hmemo, htrace, Or.inr (Or.inr (by simp))⟩
            | ok r =>
                rw [postStep_visit g fn kw e rest m t r hL hf]
                have hfil : ∀ o ∈ g e, (m o).isSome := by
                  intro o ho
                  have := (List.filter_eq_nil_iff.mp hL) o ho
                  cases hmo : m o with
                  | none => exact absurd (by simp [hmo]) this
                  | some v => simp
                refine ⟨?_, ?_, ?_⟩
                · intro x
                  dsimp only
                  rw [memoAt_append]
                  dsimp only
                  by_cases hx : x = e
                  · simp [hx]
                  · simp [hx, hmemo x]
                · dsimp only
                  intro i hi
                  have hlen : (t ++
                      [(⟨e, (g e).map fun o => (m o).getD default, kw, r⟩ :
                        PEntry R K)]).length = t.length + 1 := by simp
                  by_cases hit : i < t.length
                  · have hget : (t ++ [(⟨e, (g e).map fun o => (m o).getD
                        default, kw, r⟩ : PEntry R K)]).get ⟨i, hi⟩ =
                        t.get ⟨i, hit⟩ := by
                      simp [List.get_eq_getElem,
                        List.getElem_append_left hit]
                    have htake : (t ++ [(⟨e, (g e).map fun o => (m o).getD
                        default, kw, r⟩ : PEntry R K)]).take i = t.take i :=
                      List.take_append_of_le_length (le_of_lt hit)
                    obtain ⟨hkw, hargs, hsome, hord⟩ := htrace i hit
                    rw [hget, htake]
                    refine ⟨hkw, hargs, hsome, ?_⟩
                    intro o ho
                    obtain ⟨j, hj, hlt, hnode⟩ := hord o ho
                    refine ⟨j, by simp; omega, hlt, ?_⟩
                    have : (t ++ [(⟨e, (g e).map fun o => (m o).getD
                        default, kw, r⟩ : PEntry R K)]).get
                          ⟨j, by simp; omega⟩ =
                        t.get ⟨j, hj⟩ := by
                      simp [List.get_eq_getElem, List.getElem_append_left hj]
                    rw [this, hnode]
                  · have hieq : i = t.length := by
                      simp at hi
                      omega
                    subst hieq
                    have hget : (t ++ [(⟨e, (g e).map fun o => (m o).getD
                        default, kw, r⟩ : PEntry R K)]).get ⟨t.length, hi⟩ =
                        ⟨e, (g e).map fun o => (m o).getD default, kw, r⟩ := by
                      simp [List.get_eq_getElem]
                    have htake : (t ++ [(⟨e, (g e).map fun o => (m o).getD
                        default, kw, r⟩ : PEntry R K)]).take t.length = t :=
                      List.take_left t _
                    rw [hget, htake]
                    refine ⟨rfl, ?_, ?_, ?_⟩
                    · apply List.map_congr_left
                      intro o _
                      rw [hmemo o]
                    · intro o ho
                      rw [← hmemo o]
                      exact hfil o ho
                    · intro o ho
                      have hs : (memoAt t o).isSome := by
                        rw [← hmemo o]; exact hfil o ho
                      obtain ⟨j, hj, hnode⟩ := memoAt_isSome_mem t o hs
                      refine ⟨j, by simp; omega, hj, ?_⟩
                      have : (t ++ [(⟨e, (g e).map fun o => (m o).getD
                          default, kw, r⟩ : PEntry R K)]).get
                            ⟨j, by simp; omega⟩ =
                          t.get ⟨j, hj⟩ := by
                        simp [List.get_eq_getElem,
                          List.getElem_append_left hj]
                      rw [this, hnode]
                · dsimp only
                  rcases hroot with hr | hr | hr
                  · rcases List.mem_cons.mp hr with hr | hr
                    · refine Or.inr (Or.inl ?_)
                      simp [hr]
                    · exact Or.inl hr
                  · refine Or.inr (Or.inl ?_)
                    by_cases hx : root = e
                    · simp [hx]
                    · simp only [if_neg hx]
                      exact hr
                  · simp at hr
          · rw [postStep_push g fn kw e rest m t hL]
            refine ⟨hmemo, htrace, ?_⟩
            rcases hroot with hr | hr | hr
            · rcases List.mem_cons.mp hr with hr | hr
              · exact Or.inl (List.mem_append.mpr (Or.inr
                  (by rw [hr]; exact List.mem_cons_self e rest)))
              · exact Or.inl (List.mem_append.mpr (Or.inr
                  (List.mem_cons_of_mem e hr)))
            · exact Or.inr (Or.inl hr)
            · simp at hr

theorem inv_run (fuel : Nat) :
    Inv g kw root (postRun g fn kw fuel root : PConfig R K E) := by
  induction fuel with
  | zero => exact inv_init g kw root
  | succ n ih =>
      rw [postRun, Function.iterate_succ_apply']
      exact inv_step g fn kw root _ ih

end InvariantLemmas

section TerminationLemmas

variable {R K : Type} [Inhabited R]

theorem pop_block (g : Nat → List Nat) (f : Nat → List R → K → R) (kw : K) :
    ∀ (l : List Nat),
      (∀ c ∈ l, ∀ (rest : List Nat) (m : Nat → Option R)
          (t : List (PEntry R K)),
        ∃ k m' t',
          (postStep g (pfn f) kw)^[k]
              (⟨c :: rest, m, t, none⟩ : PConfig R K Empty) =
            ⟨rest, m', t', none⟩ ∧ DomMono m m' ∧ (m' c).isSome) →
      ∀ (rest : List Nat) (m : Nat → Option R) (t : List (PEntry R K)),
        ∃ k m' t',
          (postStep g (pfn f) kw)^[k]
              (⟨l ++ rest, m, t, none⟩ : PConfig R K Empty) =
            ⟨rest, m', t', none⟩ ∧ DomMono m m'
          ∧ ∀ c ∈ l, (m' c).isSome := by
  intro l
  induction l with
  | nil =>
      intro _ rest m t
      exact ⟨0, m, t, rfl, fun x hx => hx, by simp⟩
  | cons c l ih =>
      intro H rest m t
      obtain ⟨k1, m1, t1, hrun1, hmono1, hsome1⟩ :=
        H c (List.mem_cons_self c l) (l ++ rest) m t
      obtain ⟨k2, m2, t2, hrun2, hmono2, hsome2⟩ :=
        ih (fun x hx => H x (List.mem_cons_of_mem c hx)) rest m1 t1
      refine ⟨k2 + k1, m2, t2, ?_, fun x hx => hmono2 x (hmono1 x hx), ?_⟩
      · rw [Function.iterate_add_apply]
        simp only [List.cons_append]
        rw [hrun1, hrun2]
      · intro x hx
        rcases List.mem_cons.mp hx with hx | hx
        · rw [hx]
          exact hmono2 c (hsome1)
        · exact hsome2 x hx

theorem pop_node (g : Nat → List Nat) (depth : Nat → Nat)
    (hd : ∀ e o, o ∈ g e → depth o < depth e)
    (f : Nat → List R → K → R) (kw : K) :
    ∀ (d e : Nat), depth e < d →
      ∀ (rest : List Nat) (m : Nat → Option R) (t : List (PEntry R K)),
        ∃ k m' t',
          (postStep g (pfn f) kw)^[k]
              (⟨e :: rest, m, t, none⟩ : PConfig R K Empty) =
            ⟨rest, m', t', none⟩ ∧ DomMono m m' ∧ (m' e).isSome := by
  intro d
  induction d using Nat.strong_induction_on with
  | _ d ih =>
    intro e hde rest m t
    by_cases hL : ((g e).filter fun o => (m o).isNone) = []
    · refine ⟨1,
        fun x => if x = e then
          some (f e ((g e).map fun o => (m o).getD default) kw) else m x,
        t ++ [⟨e, (g e).map fun o => (m o).getD default, kw,
          f e ((g e).map fun o => (m o).getD default) kw⟩], ?_, ?_, ?_⟩
      · rw [Function.iterate_one]
        exact postStep_visit g (pfn f) kw e rest m t _ hL rfl
      · intro x hx
        by_cases hx' : x = e
        · simp [hx']
        · simp only [if_neg hx']
          exact hx
      · simp
    · have H : ∀ c ∈ ((g e).filter fun o => (m o).isNone).reverse,
          ∀ (rest' : List Nat) (m'' : Nat → Option R)
            (t'' : List (PEntry R K)),
          ∃ k m' t',
            (postStep g (pfn f) kw)^[k]
                (⟨c :: rest', m'', t'', none⟩ : PConfig R K Empty) =
              ⟨rest', m', t', none⟩ ∧ DomMono m'' m' ∧ (m' c).isSome := by
        intro c hc rest' m'' t''
        have hcg : c ∈ g e := (List.mem_filter.mp (List.mem_reverse.mp hc)).1
        exact ih (depth e) hde c (hd e c hcg) rest' m'' t''
      obtain ⟨k2, m2, t2, hrun2, hmono2, hsome2⟩ :=
        pop_block g f kw _ H (e :: rest) m t
      have hL2 : ((g e).filter fun o => (m2 o).isNone) = [] := by
        rw [List.filter_eq_nil_iff]
        intro o ho
        have hs : (m2 o).isSome := by
          by_cases hmo : (m o).isSome
          · exact hmono2 o hmo
          · apply hsome2
            apply List.mem_reverse.mpr
            apply List.mem_filter.mpr
            refine ⟨ho, ?_⟩
            cases hmo' : m o with
            | none => rfl
            | some v => exact absurd (by simp [hmo']) hmo
        cases h2 : m2 o with
        | none => rw [h2] at hs; simp at hs
        | some v => simp
      refine ⟨k2 + 1 + 1,
        fun x => if x = e then
          some (f e ((g e).map fun o => (m2 o).getD default) kw)
        else m2 x,
        t2 ++ [⟨e, (g e).map fun o => (m2 o).getD default, kw,
          f e ((g e).map fun o => (m2 o).getD default) kw⟩], ?_, ?_, ?_⟩
      · rw [Function.iterate_succ_apply']
        have h1 : (postStep g (pfn f) kw)^[k2 + 1]
            (⟨e :: rest, m, t, none⟩ : PConfig R K Empty) =
            ⟨e :: rest, m2, t2, none⟩ := by
          rw [Function.iterate_add_apply, Function.iterate_one,
            postStep_push g (pfn f) kw e rest m t hL]
          exact hrun2
        rw [h1]
        exact postStep_visit g (pfn f) kw e rest m2 t2 _ hL2 rfl
      · intro x hx
        by_cases hx' : x = e
        · simp [hx']
        · simp only [if_neg hx']
          exact hmono2 x hx
      · simp

theorem gCyc_never_finishes (f : Nat → List R → K → R) (kw : K) :
    ∀ fuel, ((postRun gCyc (pfn f) kw fuel 0 : PConfig R K Empty)).stack ≠ []
      ∧ ((postRun gCyc (pfn f) kw fuel 0 : PConfig R K Empty)).memo 0
          = none := by
  intro fuel
  induction fuel with
  | zero => exact ⟨by simp [postRun, initConfig], rfl⟩
  | succ n ih =>
      obtain ⟨hst, hm⟩ := ih
      have hstep : (postRun gCyc (pfn f) kw (n + 1) 0 : PConfig R K Empty)
          = postStep gCyc (pfn f) kw (postRun gCyc (pfn f) kw n 0) := by
        rw [postRun, Function.iterate_succ_apply']
        rfl
      rcases hcfg : (postRun gCyc (pfn f) kw n 0 : PConfig R K Empty)
        with ⟨st, m, t, cerr⟩
      cases cerr with
      | some x => exact x.elim
      | none =>
          rw [hcfg] at hstep hst hm
          dsimp only at hst hm
          cases st with
          | nil => exact absurd rfl hst
          | cons e rest =>
              have hfl : ((gCyc e).filter fun o => (m o).isNone) = [0] := by
                show ([0].filter fun o => (m o).isNone) = [0]
                simp [hm]
              have hpush := postStep_push gCyc (pfn f) kw e rest m t
                (by rw [hfl]; exact (by simp))
              rw [hfl] at hpush
              rw [hstep, hpush]
              exact ⟨by simp, hm⟩

end TerminationLemmas

section PropagationLemmas

variable {R K E : Type} [Inhabited R]

theorem err_from_fn (g : Nat → List Nat)
    (fn : Nat → List R → K → Except E R) (kw : K) :
    ∀ (fuel root : Nat) (err : E),
      ((postRun g fn kw fuel root : PConfig R K E)).err = some err →
      ∃ e args, fn e args kw = .error err := by
  intro fuel
  induction fuel with
  | zero =>
      intro root err h
      simp [postRun, initConfig] at h
  | succ n ih =>
      intro root err h
      have h' : (postStep g fn kw
          (postRun g fn kw n root : PConfig R K E)).err = some err := by
        rw [postRun, Function.iterate_succ_apply'] at h
        exact h
      rcases hcfg : (postRun g fn kw n root : PConfig R K E)
        with ⟨st, m, t, cerr⟩
      rw [hcfg] at h'
      cases cerr with
      | some er =>
          rw [postStep_of_err g fn kw _ (by simp)] at h'
          have her : er = err := by simpa using h'
          apply ih root err
          rw [hcfg, ← her]
      | none =>
          cases st with
          | nil =>
              rw [postStep_nil] at h'
              simp at h'
          | cons e rest =>
              by_cases hL : ((g e).filter fun o => (m o).isNone) = []
              · cases hf : fn e ((g e).map fun o => (m o).getD default) kw
                  with
                | error er =>
                    rw [postStep_raise g fn kw e rest m t er hL hf] at h'
                    have her : er = err := by simpa using h'
                    exact ⟨e, (g e).map fun o => (m o).getD default,
                      her ▸ hf⟩
                | ok r =>
                    rw [postStep_visit g fn kw e rest m t r hL hf] at h'
                    simp at h'
              · rw [postStep_push g fn kw e rest m t hL] at h'
                simp at h'

end PropagationLemmas

/-!
## The claims
-/

/-- Claim C1, counterexample: on the sharing example
shared = Symbol("x") + Symbol("x"), twice = shared + shared, the claim
that postvisitor invokes fn exactly once per node — exactly 4 times
here — is false: the run terminates (empty stack) and the trace of fn
invocations is [1, 0, 2, 2, 3] — five invocations, not four, because
the inner Add node (id 2) occurs twice in the operand list of the
outer Add node (id 3), is pushed twice while unvisited, and is visited
both times. -/
theorem claim_C1_counterexample :
    (postRun gTwice countFn () 9 3).stack = []
    ∧ ((postRun gTwice countFn () 9 3).trace.map fun en => en.node)
        = [1, 0, 2, 2, 3]
    ∧ ¬((postRun gTwice countFn () 9 3).trace.length = 4) := by
  refine ⟨rfl, rfl, ?_⟩
  intro h
  have h5 : (postRun gTwice countFn () 9 3).trace.length = 5 := rfl
  omega

/-- Claim C1 (amended): on shared = Symbol("x") + Symbol("x") and
twice = shared + shared, postvisitor(twice, fn) terminates and invokes
fn exactly 5 times: once on each of the two Symbol leaves (ids 0, 1),
once on the outer Add (id 3), and twice on the inner shared Add
(id 2), which is pushed twice as an unvisited operand of the outer Add
and visited both times; the traversal still returns the root's
memoized result. -/
theorem claim_C1_amended :
    (postRun gTwice countFn () 9 3).stack = []
    ∧ ((postRun gTwice countFn () 9 3).trace.map fun en => en.node)
        = [1, 0, 2, 2, 3]
    ∧ (postRun gTwice countFn () 9 3).trace.length = 5
    ∧ ((postRun gTwice countFn () 9 3).trace.map fun en => en.node).count 0
        = 1
    ∧ ((postRun gTwice countFn () 9 3).trace.map fun en => en.node).count 1
        = 1
    ∧ ((postRun gTwice countFn () 9 3).trace.map fun en => en.node).count 2
        = 2
    ∧ ((postRun gTwice countFn () 9 3).trace.map fun en => en.node).count 3
        = 1
    ∧ postvisitor gTwice countFn () 9 3 = some (.ok 1) := by
  exact ⟨rfl, rfl, rfl, by decide, by decide, by decide, by decide, rfl⟩

/-- Claim C2: for any two numeric literals Number(a), Number(b) and
any symbol name x, differentiating the expression
Number(a) + Number(b) with respect to x — running the postorder
visitor with fn = differentiate and keyword argument var = x over the
three-node operand graph of the expression — returns the expression
Add(Number(0.0), Number(0.0)), whose readable string rendering is
"0.0 + 0.0". -/
theorem claim_C2 (a b : PyVal) (x : String) :
    postvisitor gAddNN
        (fun e o var => differentiate (lblAddNN a b e) o var) x 9 2
      = some (.ok (.Op .add (.Number (.float 0)) (.Number (.float 0))))
    ∧ Expr.str (.Op .add (.Number (.float 0)) (.Number (.float 0)))
        = "0.0 + 0.0" :=
  ⟨rfl, rfl⟩

/-- Claim C4: the per-kind differentiation rules return exactly the
spec table's expressions: Number(0.0) for a Number node; Number(1.0)
or Number(0.0) for a Symbol node according to whether its name equals
the target; d0 + d1 for Add; d0 - d1 for Sub; d0*e1 + d1*e0 for Mul;
(d0*e1 - e0*d1) / (e1^2) for Div; and e1 * (e0^(e1-1)) * d0 for Pow —
each a newly built tree; the input nodes are values of an inductive
type and are unchanged by construction. -/
theorem claim_C4 :
    (∀ (var : String) (v : PyVal) (o : List Expr),
      differentiate (.Number v) o var = .ok (.Number (.float 0)))
    ∧ (∀ (var s : String) (o : List Expr),
      differentiate (.Symbol s) o var
        = .ok (.Number (.float (if s = var then 1 else 0))))
    ∧ (∀ (var : String) (e0 e1 d0 d1 : Expr),
      differentiate (.Op .add e0 e1) [d0, d1] var
        = .ok (.Op .add d0 d1))
    ∧ (∀ (var : String) (e0 e1 d0 d1 : Expr),
      differentiate (.Op .sub e0 e1) [d0, d1] var
        = .ok (.Op .sub d0 d1))
    ∧ (∀ (var : String) (e0 e1 d0 d1 : Expr),
      differentiate (.Op .mul e0 e1) [d0, d1] var
        = .ok (.Op .add (.Op .mul d0 e1) (.Op .mul d1 e0)))
    ∧ (∀ (var : String) (e0 e1 d0 d1 : Expr),
      differentiate (.Op .div e0 e1) [d0, d1] var
        = .ok (.Op .div (.Op .sub (.Op .mul d0 e1) (.Op .mul e0 d1))
            (.Op .pow e1 (.Number (.int 2)))))
    ∧ (∀ (var : String) (e0 e1 d0 d1 : Expr),
      differentiate (.Op .pow e0 e1) [d0, d1] var
        = .ok (.Op .mul
            (.Op .mul e1 (.Op .pow e0 (.Op .sub e1 (.Number (.int 1)))))
            d0)) := by
  refine ⟨fun var v o => rfl, ?_, fun _ _ _ _ _ => rfl,
    fun _ _ _ _ _ => rfl, fun _ _ _ _ _ => rfl, fun _ _ _ _ _ => rfl,
    fun _ _ _ _ _ => rfl⟩
  intro var s o
  by_cases h : s = var
  · subst h
    simp [differentiate]
  · have h' : ¬(var = s) := fun hh => h hh.symm
    simp [differentiate, h, h']

/-- Claim C5: rendering an operator node parenthesizes an operand iff
the operand's precedence is strictly below the node's, joins the two
sides with the glyph surrounded by single spaces, renders terminals as
the plain string of their wrapped value, never parenthesizes a
right-hand child of equal precedence, and in particular renders
(Symbol("x") + Symbol("y")) * Symbol("z") as "(x + y) * z" and
Symbol("x") + Symbol("y") * Symbol("z") as "x + y * z". -/
theorem claim_C5 :
    (∀ (k : OpKind) (a b : Expr),
      Expr.str (.Op k a b)
        = (if a.precedence < opPrec k then "(" ++ a.str ++ ")" else a.str)
          ++ " " ++ opSymbol k ++ " "
          ++ (if b.precedence < opPrec k then "(" ++ b.str ++ ")"
              else b.str))
    ∧ (∀ v : PyVal, Expr.str (.Number v) = pyValStr v)
    ∧ (∀ s : String, Expr.str (.Symbol s) = s)
    ∧ (∀ (k : OpKind) (a b : Expr), b.precedence = opPrec k →
        Expr.str (.Op k a b)
          = (if a.precedence < opPrec k then "(" ++ a.str ++ ")"
             else a.str)
            ++ " " ++ opSymbol k ++ " " ++ b.str)
    ∧ Expr.str (.Op .mul (.Op .add (.Symbol "x") (.Symbol "y"))
        (.Symbol "z")) = "(x + y) * z"
    ∧ Expr.str (.Op .add (.Symbol "x") (.Op .mul (.Symbol "y")
        (.Symbol "z"))) = "x + y * z" := by
  refine ⟨fun k a b => rfl, fun v => rfl, fun s => rfl, ?_, rfl, rfl⟩
  intro k a b hb
  show (if opPrec k > a.precedence then "(" ++ a.str ++ ")" else a.str)
      ++ " " ++ opSymbol k ++ " "
      ++ (if opPrec k > b.precedence then "(" ++ b.str ++ ")" else b.str)
    = _
  rw [hb, if_neg (lt_irrefl (opPrec k))]

/-- Claim C5, witness: a right-hand Add child of an Add node has equal
precedence 0 and renders without parentheses. -/
theorem claim_C5_witness :
    (Expr.Op .add (.Symbol "y") (.Symbol "z")).precedence = opPrec .add
    ∧ Expr.str (.Op .add (.Symbol "x")
        (.Op .add (.Symbol "y") (.Symbol "z"))) = "x + y + z" := by
  refine ⟨rfl, ?_⟩
  rw [claim_C5.2.2.2.1 .add (.Symbol "x")
    (.Op .add (.Symbol "y") (.Symbol "z")) rfl]
  rfl

/-- Claim C6: Number.__init__ succeeds exactly on numeric arguments
and otherwise raises a TypeError at construction time; Symbol.__init__
succeeds exactly on string arguments and otherwise raises a TypeError
at construction time; operator-node construction always succeeds. -/
theorem claim_C6 :
    (∀ x : PyObj, (Number_init x).isOk = isNum x)
    ∧ (∀ x : PyObj, isNum x = false →
        Number_init x = .error ⟨"TypeError", initTypeErrorMsg⟩)
    ∧ (∀ v : PyVal, Number_init (.num v) = .ok (.Number v))
    ∧ (∀ x : PyObj, (Symbol_init x).isOk = isStr x)
    ∧ (∀ x : PyObj, isStr x = false →
        Symbol_init x = .error ⟨"TypeError", initTypeErrorMsg⟩)
    ∧ (∀ s : String, Symbol_init (.str s) = .ok (.Symbol s))
    ∧ (∀ (k : OpKind) (a b : Expr), Opearator_init k a b = .Op k a b) := by
  refine ⟨?_, ?_, fun v => rfl, ?_, ?_, fun s => rfl, fun k a b => rfl⟩
  · intro x
    cases x <;> rfl
  · intro x h
    cases x with
    | num v => simp [isNum] at h
    | expr e => rfl
    | str s => rfl
    | other t => rfl
  · intro x
    cases x <;> rfl
  · intro x h
    cases x with
    | str s => simp [isStr] at h
    | expr e => rfl
    | num v => rfl
    | other t => rfl

/-- Claim C6, witness: constructing Number from a string and Symbol
from an int both raise the TypeError, at concrete inputs. -/
theorem claim_C6_witness :
    isNum (.str "a") = false
    ∧ Number_init (.str "a") = .error ⟨"TypeError", initTypeErrorMsg⟩
    ∧ isStr (.num (.int 3)) = false
    ∧ Symbol_init (.num (.int 3))
        = .error ⟨"TypeError", initTypeErrorMsg⟩ :=
  ⟨rfl, claim_C6.2.1 (.str "a") rfl, rfl,
    claim_C6.2.2.2.2.1 (.num (.int 3)) rfl⟩

/-- Claim C7: for every native number n, expression e and operation
among add, sub, mul, truediv and pow, the reflected dunder builds
exactly the node built by Number(n) op e: the operator node whose
operand 0 is the Number-wrapped literal and whose operand 1 is e; in
particular the operand order of the non-commutative sub, truediv and
pow is never swapped. -/
theorem claim_C7 (n : PyVal) (e : Expr) :
    (dunder_radd e n = some (.Op .add (.Number n) e)
      ∧ dunder_radd e n = dunder_add (.Number n) (.expr e))
    ∧ (dunder_rsub e n = some (.Op .sub (.Number n) e)
      ∧ dunder_rsub e n = dunder_sub (.Number n) (.expr e))
    ∧ (dunder_rmul e n = some (.Op .mul (.Number n) e)
      ∧ dunder_rmul e n = dunder_mul (.Number n) (.expr e))
    ∧ (dunder_rtruediv e n = some (.Op .div (.Number n) e)
      ∧ dunder_rtruediv e n = dunder_truediv (.Number n) (.expr e))
    ∧ (dunder_rpow e n = some (.Op .pow (.Number n) e)
      ∧ dunder_rpow e n = dunder_pow (.Number n) (.expr e)) :=
  ⟨⟨rfl, rfl⟩, ⟨rfl, rfl⟩, ⟨rfl, rfl⟩, ⟨rfl, rfl⟩, ⟨rfl, rfl⟩⟩

/-- Claim C10: when the right-hand operand of a forward arithmetic
dunder is neither an Expression nor a native number (i.e. a str or any
other object), every one of the five operations returns None rather
than raising or building a node. -/
theorem claim_C10 (e : Expr) (s t : String) :
    (dunder_add e (.str s) = none ∧ dunder_add e (.other t) = none)
    ∧ (dunder_sub e (.str s) = none ∧ dunder_sub e (.other t) = none)
    ∧ (dunder_mul e (.str s) = none ∧ dunder_mul e (.other t) = none)
    ∧ (dunder_truediv e (.str s) = none
      ∧ dunder_truediv e (.other t) = none)
    ∧ (dunder_pow e (.str s) = none ∧ dunder_pow e (.other t) = none) :=
  ⟨⟨rfl, rfl⟩, ⟨rfl, rfl⟩, ⟨rfl, rfl⟩, ⟨rfl, rfl⟩, ⟨rfl, rfl⟩⟩

/-- Claim C3: in every run of postvisitor — any operand graph, any fn,
any keyword arguments, any fuel — (1) fn is never invoked on a node
before all of that node's operands have been the subject of an earlier
invocation; (2) each invocation receives as positional arguments
exactly the memoized results of the node's direct operands, in operand
order, as of the moment of the invocation, all of which are present;
(3) the keyword arguments are forwarded unchanged to every invocation;
and (4) when the loop exits normally, postvisitor returns the result
memoized for the root node. -/
theorem claim_C3 (R K E : Type) [Inhabited R] (g : Nat → List Nat)
    (fn : Nat → List R → K → Except E R) (kw : K) (fuel root : Nat) :
    (∀ i (hi : i < (postRun g fn kw fuel root).trace.length),
      ∀ o ∈ g (((postRun g fn kw fuel root).trace.get ⟨i, hi⟩).node),
        ∃ j, ∃ hj : j < (postRun g fn kw fuel root).trace.length,
          j < i ∧ ((postRun g fn kw fuel root).trace.get ⟨j, hj⟩).node = o)
    ∧ (∀ i (hi : i < (postRun g fn kw fuel root).trace.length),
        ((postRun g fn kw fuel root).trace.get ⟨i, hi⟩).args
          = (g (((postRun g fn kw fuel root).trace.get ⟨i, hi⟩).node)).map
              (fun o =>
                (memoAt ((postRun g fn kw fuel root).trace.take i) o).getD
                  default)
        ∧ ∀ o ∈ g (((postRun g fn kw fuel root).trace.get ⟨i, hi⟩).node),
            (memoAt ((postRun g fn kw fuel root).trace.take i) o).isSome)
    ∧ (∀ en ∈ (postRun g fn kw fuel root).trace, en.kw = kw)
    ∧ ((postRun g fn kw fuel root).err = none →
        (postRun g fn kw fuel root).stack = [] →
        ∃ r, (postRun g fn kw fuel root).memo root = some r
          ∧ postvisitor g fn kw fuel root = some (.ok r)) := by
  obtain ⟨hmemo, htrace, hroot⟩ := inv_run g fn kw root fuel
  refine ⟨?_, ?_, ?_, ?_⟩
  · intro i hi o ho
    exact (htrace i hi).2.2.2 o ho
  · intro i hi
    exact ⟨(htrace i hi).2.1, (htrace i hi).2.2.1⟩
  · intro en hen
    obtain ⟨i, heq⟩ := List.mem_iff_get.mp hen
    exact heq ▸ (htrace i.1 i.2).1
  · intro herr hstack
    rcases hroot with hr | hr | hr
    · rw [hstack] at hr
      simp at hr
    · obtain ⟨r, hrr⟩ := Option.isSome_iff_exists.mp hr
      refine ⟨r, hrr, ?_⟩
      simp [postvisitor, herr, hstack, hrr]
    · rw [herr] at hr
      simp at hr

/-- Claim C3, witness: on the concrete sharing graph the run
terminates with no exception and postvisitor returns the memoized
result for the root. -/
theorem claim_C3_witness :
    ∃ r, (postRun gTwice countFn () 9 3).memo 3 = some r
      ∧ postvisitor gTwice countFn () 9 3 = some (.ok r) :=
  (claim_C3 Nat Unit Empty gTwice countFn () 9 3).2.2.2 rfl rfl

/-- Claim C8: differentiating a node of a kind with no registered rule
— a direct instance of Expression, Opearator or Terminal, and only
those kinds — raises NotImplementedError with message "Cannot
evaluate a " followed by the class name; and any exception raised by
the dispatched function during a traversal propagates out of
postvisitor unchanged: whenever postvisitor reports an error, that
very error was returned by some invocation of fn. -/
theorem claim_C8 :
    (∀ k : PyClassK,
      differentiate_dispatch k
          = .error ⟨"NotImplementedError",
              "Cannot evaluate a " ++ pyClassName k⟩
        ↔ (k = .expressionC ∨ k = .opearatorC ∨ k = .terminalC))
    ∧ (∀ (R K E : Type) [Inhabited R] (g : Nat → List Nat)
        (fn : Nat → List R → K → Except E R) (kw : K) (fuel root : Nat)
        (err : E),
        postvisitor g fn kw fuel root = some (.error err) →
        ∃ e args, fn e args kw = .error err) := by
  constructor
  · intro k
    cases k <;> simp [differentiate_dispatch, hasDiffRegistration,
      pyClassName]
  · intro R K E _ g fn kw fuel root err h
    rcases hcerr : (postRun g fn kw fuel root : PConfig R K E).err
      with _ | er
    · exfalso
      simp only [postvisitor, hcerr] at h
      by_cases hemp : (postRun g fn kw fuel root :
          PConfig R K E).stack.isEmpty
      · rw [if_pos hemp] at h
        rcases hmr : (postRun g fn kw fuel root : PConfig R K E).memo root
          with _ | r
        · rw [hmr] at h
          simp at h
        · rw [hmr] at h
          simp at h
      · rw [if_neg hemp] at h
        simp at h
    · have her : er = err := by
        simp only [postvisitor, hcerr] at h
        simpa using h
      exact err_from_fn g fn kw fuel root err (her ▸ hcerr)

/-- Claim C8, witness: a visitor function that always raises makes a
concrete traversal report that very error, produced by fn. -/
theorem claim_C8_witness :
    ∃ e args, failFn e args () = .error "boom" :=
  claim_C8.2 Nat Unit String gLeaf failFn () 2 0 "boom" rfl

/-- Claim C9: for every operand graph carrying a depth measure that
decreases from a node to each of its operands (every finite acyclic
graph carries one) and every total visitor function, postvisitor
terminates with a result for some fuel; and on the cyclic graph in
which node 0 is its own operand, the loop never finishes: for every
fuel the stack is still nonempty and postvisitor reports no result. -/
theorem claim_C9 :
    (∀ (R K : Type) [Inhabited R] (g : Nat → List Nat)
        (depth : Nat → Nat),
      (∀ e o, o ∈ g e → depth o < depth e) →
      ∀ (f : Nat → List R → K → R) (kw : K) (root : Nat),
        ∃ fuel r, postvisitor g (pfn f) kw fuel root = some (.ok r))
    ∧ (∀ (R K : Type) [Inhabited R] (f : Nat → List R → K → R) (kw : K)
        (fuel : Nat),
        postvisitor gCyc (pfn f) kw fuel 0 = none) := by
  constructor
  · intro R K _ g depth hd f kw root
    obtain ⟨k, m', t', hrun, _, hsome⟩ :=
      pop_node g depth hd f kw (depth root + 1) root (by omega) []
        (fun _ => none) []
    obtain ⟨r, hr⟩ := Option.isSome_iff_exists.mp hsome
    refine ⟨k, r, ?_⟩
    have hc : (postRun g (pfn f) kw k root : PConfig R K Empty)
        = ⟨[], m', t', none⟩ := by
      rw [postRun]
      exact hrun
    simp [postvisitor, hc, hr]
  · intro R K _ f kw fuel
    obtain ⟨hst, _⟩ := gCyc_never_finishes f kw fuel
    have hcerr : (postRun gCyc (pfn f) kw fuel 0 :
        PConfig R K Empty).err = none := by
      cases h : (postRun gCyc (pfn f) kw fuel 0 :
          PConfig R K Empty).err with
      | none => rfl
      | some x => exact x.elim
    have hemp : (postRun gCyc (pfn f) kw fuel 0 :
        PConfig R K Empty).stack.isEmpty = false := by
      cases hs : (postRun gCyc (pfn f) kw fuel 0 :
          PConfig R K Empty).stack with
      | nil => exact absurd hs hst
      | cons a l => rfl
    simp [postvisitor, hcerr, hemp]

/-- Claim C9, witness: the concrete acyclic sharing graph carries a
decreasing depth measure, and the traversal over it terminates with a
result. -/
theorem claim_C9_witness :
    ∃ fuel r,
      postvisitor gTwice countFn () fuel 3 = some (Except.ok r) := by
  have hd : ∀ e o, o ∈ gTwice e → depthTwice o < depthTwice e := by
    intro e o ho
    by_cases h2 : e = 2
    · subst h2
      simp [gTwice] at ho
      rcases ho with rfl | rfl <;> decide
    · by_cases h3 : e = 3
      · subst h3
        simp [gTwice] at ho
        subst ho
        decide
      · simp [gTwice, h2, h3] at ho
  exact claim_C9.1 Nat Unit gTwice depthTwice hd (fun _ _ _ => 1) () 3

end Expressions
